import Mathlib

/-!
Verification of the core probability functions of the
never-stop-blowing-up-probabilities repository (src/main.rs).

The source is Rust.  Probabilities (Rust `f64`) are modelled as exact
rationals `ℚ`; the `u32` roll/token/DC bookkeeping is modelled as `ℕ` with
truncated subtraction, and the places where the source relies on subtraction
not underflowing are proved safe (see the integer-token model `pswtIntF`
below, which uses genuine integer subtraction).

The two recursive functions of the source recurse on a strictly decreasing
difficulty value, so they are embedded with an explicit structural fuel
argument; `fuel ≥ dc` is always enough (proved by the `*_congr` lemmas), and
the argument-facing wrappers instantiate `fuel := dc`.
-/

/-- Kinds of dice available in Never Stop Blowing Up (enum `Die` in the
source). -/
inductive Die where
  | D4
  | D6
  | D8
  | D10
  | D12
  | D20
deriving DecidableEq

/-- `Die::sides`: the number of sides on the die. -/
def Die.sides : Die → ℕ
  | Die.D4 => 4
  | Die.D6 => 6
  | Die.D8 => 8
  | Die.D10 => 10
  | Die.D12 => 12
  | Die.D20 => 20

/-- `Die::next`: the next highest die type, saturating at a d20. -/
def Die.next : Die → Die
  | Die.D4 => Die.D6
  | Die.D6 => Die.D8
  | Die.D8 => Die.D10
  | Die.D10 => Die.D12
  | Die.D12 => Die.D20
  | Die.D20 => Die.D20

/-- Fuel-indexed embedding of `probability_of_success` (src/main.rs,
lines 70-85).  With `fuel ≥ dc` the fuel never runs out (each recursive call
lowers `dc` by `die.sides ≥ 4`); at `fuel = 0` necessarily `dc = 0`, and the
source returns `1.0` for `dc ≤ 1`. -/
def psF : ℕ → Die → ℕ → ℚ
  | 0, _, _ => 1
  | fuel + 1, die, dc =>
    -- Can always roll a 1 or higher.
    if dc ≤ 1 then 1
    -- If the DC is lower than or equal to the maximum value of the die.
    else if dc ≤ die.sides then
      ((die.sides - dc + 1 : ℕ) : ℚ) / (die.sides : ℚ)
    -- Otherwise explode the die and recurse.
    else 1 / (die.sides : ℚ) * psF fuel die.next (dc - die.sides)

/-- `probability_of_success(die, dc)` from src/main.rs. -/
def probability_of_success (die : Die) (dc : ℕ) : ℚ :=
  psF dc die dc

/-- Fuel-indexed embedding of `probability_of_success_with_turbo_tokens`
(src/main.rs, lines 103-130).  The Rust iterator `(1..=die.sides())` is the
interval `Finset.Icc 1 die.sides`; `(die.sides() - roll).saturating_sub(1)`
is the truncated `die.sides - r - 1`. -/
def pswtF : ℕ → Die → ℕ → ℕ → ℚ
  | 0, _, _, _ => 1
  | fuel + 1, die, tokens, dc =>
    -- Can always roll a 1 or higher.
    if dc ≤ 1 then 1
    -- Turbo tokens can be counted as successful outcomes.
    else if dc ≤ die.sides then
      ((min (die.sides - dc + 1 + tokens) die.sides : ℕ) : ℚ) / (die.sides : ℚ)
    -- Otherwise consider all possible rolls with the current die.
    else ∑ r ∈ Finset.Icc 1 die.sides,
      if r + tokens < die.sides - 1 then 0
      else pswtF fuel die.next (tokens - (die.sides - r - 1)) (dc - r) / (die.sides : ℚ)

/-- `probability_of_success_with_turbo_tokens(die, turbo_tokens, dc)` from
src/main.rs. -/
def probability_of_success_with_turbo_tokens (die : Die) (tokens dc : ℕ) : ℚ :=
  pswtF dc die tokens dc

/-- Variant of `pswtF` in which the token pool is a genuine integer and the
token bookkeeping uses genuine (non-truncated) integer subtraction:
`(die.sides() - roll).saturating_sub(1)` becomes `max (sides - r - 1) 0` and
`turbo_tokens - tokens_needed_to_explode` becomes integer subtraction.
Agreement with `pswtF` on natural token pools shows the source's `u32`
subtraction never underflows. -/
def pswtIntF : ℕ → Die → ℤ → ℕ → ℚ
  | 0, _, _, _ => 1
  | fuel + 1, die, tokens, dc =>
    if dc ≤ 1 then 1
    else if dc ≤ die.sides then
      ((min ((die.sides : ℤ) - dc + 1 + tokens) (die.sides : ℤ) : ℤ) : ℚ) / (die.sides : ℚ)
    else ∑ r ∈ Finset.Icc 1 die.sides,
      if (r : ℤ) + tokens < (die.sides : ℤ) - 1 then 0
      else pswtIntF fuel die.next (tokens - max ((die.sides : ℤ) - r - 1) 0) (dc - r) / (die.sides : ℚ)

/-- Integer-token variant of `probability_of_success_with_turbo_tokens`. -/
def probability_of_success_with_turbo_tokens_int (die : Die) (tokens : ℤ) (dc : ℕ) : ℚ :=
  pswtIntF dc die tokens dc

/-- Fuel-indexed recursion depth of `probability_of_success`: the number of
recursive calls performed (a call recurses exactly when `dc > die.sides`). -/
def psDepthF : ℕ → Die → ℕ → ℕ
  | 0, _, _ => 0
  | fuel + 1, die, dc =>
    if dc ≤ die.sides then 0
    else psDepthF fuel die.next (dc - die.sides) + 1

/-- Recursion depth of `probability_of_success die dc`. -/
def ps_depth (die : Die) (dc : ℕ) : ℕ :=
  psDepthF dc die dc

/-- Fuel-indexed recursion depth of
`probability_of_success_with_turbo_tokens`: the deepest chain of recursive
calls.  A call recurses exactly when `dc > die.sides`, once for every roll
`r ∈ [1, die.sides]` that passes the explosion guard. -/
def pswtDepthF : ℕ → Die → ℕ → ℕ → ℕ
  | 0, _, _, _ => 0
  | fuel + 1, die, tokens, dc =>
    if dc ≤ die.sides then 0
    else (Finset.Icc 1 die.sides).sup fun r =>
      if r + tokens < die.sides - 1 then 0
      else pswtDepthF fuel die.next (tokens - (die.sides - r - 1)) (dc - r) + 1

/-- Recursion depth of `probability_of_success_with_turbo_tokens die tokens dc`. -/
def pswt_depth (die : Die) (tokens dc : ℕ) : ℕ :=
  pswtDepthF dc die tokens dc

/-! ### Basic facts about the die ladder -/

theorem Die.sides_pos (d : Die) : 0 < d.sides := by
  cases d <;> decide

theorem Die.four_le_sides (d : Die) : 4 ≤ d.sides := by
  cases d <;> decide

theorem Die.sides_posQ (d : Die) : (0 : ℚ) < (d.sides : ℚ) := by
  exact_mod_cast d.sides_pos

theorem Die.sides_neQ (d : Die) : ((d.sides : ℚ)) ≠ 0 :=
  ne_of_gt d.sides_posQ

/-! ### Fuel irrelevance and unfolding equations -/

theorem psF_congr (f₁ : ℕ) : ∀ (f₂ : ℕ) (die : Die) (dc : ℕ),
    dc ≤ f₁ → dc ≤ f₂ → psF f₁ die dc = psF f₂ die dc := by
  induction f₁ with
  | zero =>
    intro f₂ die dc h₁ h₂
    have hdc : dc = 0 := Nat.le_zero.mp h₁
    subst hdc
    cases f₂ <;> simp [psF]
  | succ f ih =>
    intro f₂ die dc h₁ h₂
    cases f₂ with
    | zero =>
      have hdc : dc = 0 := Nat.le_zero.mp h₂
      subst hdc
      simp [psF]
    | succ g =>
      simp only [psF]
      split_ifs with h1 h2
      · rfl
      · rfl
      · have hs := die.sides_pos
        rw [ih g die.next (dc - die.sides) (by omega) (by omega)]

theorem probability_of_success_eq (die : Die) (dc : ℕ) :
    probability_of_success die dc =
      if dc ≤ 1 then 1
      else if dc ≤ die.sides then
        ((die.sides - dc + 1 : ℕ) : ℚ) / (die.sides : ℚ)
      else 1 / (die.sides : ℚ) * probability_of_success die.next (dc - die.sides) := by
  unfold probability_of_success
  cases dc with
  | zero => simp [psF]
  | succ n =>
    simp only [psF]
    split_ifs with h1 h2
    · rfl
    · rfl
    · have hs := die.sides_pos
      rw [psF_congr n (n + 1 - die.sides) die.next (n + 1 - die.sides) (by omega) le_rfl]

theorem ps_dc_le_one (die : Die) (dc : ℕ) (h : dc ≤ 1) :
    probability_of_success die dc = 1 := by
  rw [probability_of_success_eq, if_pos h]

theorem ps_base (die : Die) (dc : ℕ) (h1 : 1 < dc) (h2 : dc ≤ die.sides) :
    probability_of_success die dc = ((die.sides - dc + 1 : ℕ) : ℚ) / (die.sides : ℚ) := by
  rw [probability_of_success_eq, if_neg (by omega), if_pos h2]

theorem ps_explode (die : Die) (dc : ℕ) (h : die.sides < dc) :
    probability_of_success die dc =
      1 / (die.sides : ℚ) * probability_of_success die.next (dc - die.sides) := by
  have hs := die.four_le_sides
  rw [probability_of_success_eq, if_neg (by omega), if_neg (by omega)]

theorem pswtF_congr (f₁ : ℕ) : ∀ (f₂ : ℕ) (die : Die) (tokens dc : ℕ),
    dc ≤ f₁ → dc ≤ f₂ → pswtF f₁ die tokens dc = pswtF f₂ die tokens dc := by
  induction f₁ with
  | zero =>
    intro f₂ die tokens dc h₁ h₂
    have hdc : dc = 0 := Nat.le_zero.mp h₁
    subst hdc
    cases f₂ <;> simp [pswtF]
  | succ f ih =>
    intro f₂ die tokens dc h₁ h₂
    cases f₂ with
    | zero =>
      have hdc : dc = 0 := Nat.le_zero.mp h₂
      subst hdc
      simp [pswtF]
    | succ g =>
      simp only [pswtF]
      split_ifs with h1 h2
      · rfl
      · rfl
      · refine Finset.sum_congr rfl fun r hr => ?_
        have hr1 : 1 ≤ r := (Finset.mem_Icc.mp hr).1
        by_cases hguard : r + tokens < die.sides - 1
        · rw [if_pos hguard, if_pos hguard]
        · rw [if_neg hguard, if_neg hguard,
            ih g die.next (tokens - (die.sides - r - 1)) (dc - r) (by omega) (by omega)]

theorem probability_of_success_with_turbo_tokens_eq (die : Die) (tokens dc : ℕ) :
    probability_of_success_with_turbo_tokens die tokens dc =
      if dc ≤ 1 then 1
      else if dc ≤ die.sides then
        ((min (die.sides - dc + 1 + tokens) die.sides : ℕ) : ℚ) / (die.sides : ℚ)
      else ∑ r ∈ Finset.Icc 1 die.sides,
        if r + tokens < die.sides - 1 then 0
        else probability_of_success_with_turbo_tokens die.next
              (tokens - (die.sides - r - 1)) (dc - r) / (die.sides : ℚ) := by
  unfold probability_of_success_with_turbo_tokens
  cases dc with
  | zero => simp [pswtF]
  | succ n =>
    simp only [pswtF]
    split_ifs with h1 h2
    · rfl
    · rfl
    · refine Finset.sum_congr rfl fun r hr => ?_
      have hr1 : 1 ≤ r := (Finset.mem_Icc.mp hr).1
      by_cases hguard : r + tokens < die.sides - 1
      · rw [if_pos hguard, if_pos hguard]
      · rw [if_neg hguard, if_neg hguard,
          pswtF_congr n (n + 1 - r) die.next (tokens - (die.sides - r - 1)) (n + 1 - r)
            (by omega) le_rfl]

theorem pswt_dc_le_one (die : Die) (tokens dc : ℕ) (h : dc ≤ 1) :
    probability_of_success_with_turbo_tokens die tokens dc = 1 := by
  rw [probability_of_success_with_turbo_tokens_eq, if_pos h]

theorem pswt_base (die : Die) (tokens dc : ℕ) (h1 : 1 < dc) (h2 : dc ≤ die.sides) :
    probability_of_success_with_turbo_tokens die tokens dc =
      ((min (die.sides - dc + 1 + tokens) die.sides : ℕ) : ℚ) / (die.sides : ℚ) := by
  rw [probability_of_success_with_turbo_tokens_eq, if_neg (by omega), if_pos h2]

theorem pswt_explode (die : Die) (tokens dc : ℕ) (h : die.sides < dc) :
    probability_of_success_with_turbo_tokens die tokens dc =
      ∑ r ∈ Finset.Icc 1 die.sides,
        if r + tokens < die.sides - 1 then 0
        else probability_of_success_with_turbo_tokens die.next
              (tokens - (die.sides - r - 1)) (dc - r) / (die.sides : ℚ) := by
  have hs := die.four_le_sides
  rw [probability_of_success_with_turbo_tokens_eq, if_neg (by omega), if_neg (by omega)]

/-! ### Range of the two probability functions -/

theorem ps_nonneg (dc : ℕ) : ∀ die : Die, 0 ≤ probability_of_success die dc := by
  induction dc using Nat.strongRecOn with
  | ind dc IH =>
    intro die
    rw [probability_of_success_eq]
    split_ifs with h1 h2
    · norm_num
    · positivity
    · have hs := die.four_le_sides
      have := IH (dc - die.sides) (by omega) die.next
      positivity

theorem ps_le_one (dc : ℕ) : ∀ die : Die, probability_of_success die dc ≤ 1 := by
  induction dc using Nat.strongRecOn with
  | ind dc IH =>
    intro die
    rw [probability_of_success_eq]
    split_ifs with h1 h2
    · exact le_refl 1
    · rw [div_le_one die.sides_posQ]
      exact_mod_cast (by omega : die.sides - dc + 1 ≤ die.sides)
    · have hs := die.four_le_sides
      calc 1 / (die.sides : ℚ) * probability_of_success die.next (dc - die.sides)
          ≤ 1 / (die.sides : ℚ) * 1 := by
            have h0 := ps_nonneg (dc - die.sides) die.next
            have h1 := IH (dc - die.sides) (by omega) die.next
            gcongr
        _ ≤ 1 := by
            rw [mul_one, div_le_one die.sides_posQ]
            exact_mod_cast Nat.one_le_iff_ne_zero.mpr (by omega)

theorem pswt_nonneg (dc : ℕ) : ∀ (die : Die) (tokens : ℕ),
    0 ≤ probability_of_success_with_turbo_tokens die tokens dc := by
  induction dc using Nat.strongRecOn with
  | ind dc IH =>
    intro die tokens
    rw [probability_of_success_with_turbo_tokens_eq]
    split_ifs with h1 h2
    · norm_num
    · positivity
    · refine Finset.sum_nonneg fun r hr => ?_
      have hr1 : 1 ≤ r := (Finset.mem_Icc.mp hr).1
      by_cases hg : r + tokens < die.sides - 1
      · rw [if_pos hg]
      · rw [if_neg hg]
        exact div_nonneg (IH (dc - r) (by omega) die.next _) (le_of_lt die.sides_posQ)

theorem pswt_le_one (dc : ℕ) : ∀ (die : Die) (tokens : ℕ),
    probability_of_success_with_turbo_tokens die tokens dc ≤ 1 := by
  induction dc using Nat.strongRecOn with
  | ind dc IH =>
    intro die tokens
    rw [probability_of_success_with_turbo_tokens_eq]
    split_ifs with h1 h2
    · exact le_refl 1
    · rw [div_le_one die.sides_posQ]
      exact_mod_cast min_le_right _ die.sides
    · have hs := die.four_le_sides
      have hcard : (Finset.Icc 1 die.sides).card = die.sides := by
        simp [Nat.card_Icc]
      calc (∑ r ∈ Finset.Icc 1 die.sides,
              if r + tokens < die.sides - 1 then 0
              else probability_of_success_with_turbo_tokens die.next
                    (tokens - (die.sides - r - 1)) (dc - r) / (die.sides : ℚ))
          ≤ (Finset.Icc 1 die.sides).card • (1 / (die.sides : ℚ)) := by
            refine Finset.sum_le_card_nsmul _ _ _ fun r hr => ?_
            have hr1 : 1 ≤ r := (Finset.mem_Icc.mp hr).1
            by_cases hg : r + tokens < die.sides - 1
            · rw [if_pos hg]
              positivity
            · rw [if_neg hg, div_le_div_iff₀ die.sides_posQ die.sides_posQ, one_mul]
              calc probability_of_success_with_turbo_tokens die.next
                    (tokens - (die.sides - r - 1)) (dc - r) * (die.sides : ℚ)
                  ≤ 1 * (die.sides : ℚ) := by
                    have := IH (dc - r) (by omega) die.next (tokens - (die.sides - r - 1))
                    gcongr
                _ = (die.sides : ℚ) := one_mul _
        _ = 1 := by
            rw [hcard, nsmul_eq_mul, mul_one_div, div_self die.sides_neQ]

/-! ### Relational properties -/

theorem ps_antitone (dc₂ : ℕ) : ∀ (die : Die) (dc₁ : ℕ), dc₁ ≤ dc₂ →
    probability_of_success die dc₂ ≤ probability_of_success die dc₁ := by
  induction dc₂ using Nat.strongRecOn with
  | ind dc₂ IH =>
    intro die dc₁ h
    by_cases hd1 : dc₁ ≤ 1
    · rw [ps_dc_le_one die dc₁ hd1]
      exact ps_le_one dc₂ die
    by_cases h3 : dc₂ ≤ die.sides
    · rw [ps_base die dc₂ (by omega) h3, ps_base die dc₁ (by omega) (le_trans h h3)]
      refine (div_le_div_iff_of_pos_right die.sides_posQ).mpr ?_
      exact_mod_cast (by omega : die.sides - dc₂ + 1 ≤ die.sides - dc₁ + 1)
    · rw [ps_explode die dc₂ (by omega)]
      have hstep : 1 / (die.sides : ℚ) * probability_of_success die.next (dc₂ - die.sides)
          ≤ 1 / (die.sides : ℚ) :=
        (mul_le_mul_of_nonneg_left (ps_le_one _ _) (by positivity)).trans_eq (mul_one _)
      by_cases h4 : dc₁ ≤ die.sides
      · rw [ps_base die dc₁ (by omega) h4]
        refine hstep.trans ?_
        refine (div_le_div_iff_of_pos_right die.sides_posQ).mpr ?_
        exact_mod_cast (by omega : 1 ≤ die.sides - dc₁ + 1)
      · rw [ps_explode die dc₁ (by omega)]
        have hs := die.four_le_sides
        exact mul_le_mul_of_nonneg_left
          (IH (dc₂ - die.sides) (by omega) die.next (dc₁ - die.sides) (by omega))
          (by positivity)

theorem pswt_mono_tokens (dc : ℕ) : ∀ (die : Die) (t₁ t₂ : ℕ), t₁ ≤ t₂ →
    probability_of_success_with_turbo_tokens die t₁ dc ≤
      probability_of_success_with_turbo_tokens die t₂ dc := by
  induction dc using Nat.strongRecOn with
  | ind dc IH =>
    intro die t₁ t₂ ht
    by_cases h1 : dc ≤ 1
    · rw [pswt_dc_le_one die t₁ dc h1, pswt_dc_le_one die t₂ dc h1]
    by_cases h2 : dc ≤ die.sides
    · rw [pswt_base die t₁ dc (by omega) h2, pswt_base die t₂ dc (by omega) h2]
      refine (div_le_div_iff_of_pos_right die.sides_posQ).mpr ?_
      exact_mod_cast (by omega :
        min (die.sides - dc + 1 + t₁) die.sides ≤ min (die.sides - dc + 1 + t₂) die.sides)
    · rw [pswt_explode die t₁ dc (by omega), pswt_explode die t₂ dc (by omega)]
      refine Finset.sum_le_sum fun r hr => ?_
      have hr1 : 1 ≤ r := (Finset.mem_Icc.mp hr).1
      by_cases hg₁ : r + t₁ < die.sides - 1
      · rw [if_pos hg₁]
        by_cases hg₂ : r + t₂ < die.sides - 1
        · rw [if_pos hg₂]
        · rw [if_neg hg₂]
          exact div_nonneg (pswt_nonneg _ _ _) (le_of_lt die.sides_posQ)
      · rw [if_neg hg₁, if_neg (by omega : ¬ r + t₂ < die.sides - 1)]
        refine (div_le_div_iff_of_pos_right die.sides_posQ).mpr ?_
        exact IH (dc - r) (by omega) die.next _ _ (by omega)

theorem pswt_ge_ps (dc : ℕ) : ∀ (die : Die) (tokens : ℕ),
    probability_of_success die dc ≤
      probability_of_success_with_turbo_tokens die tokens dc := by
  induction dc using Nat.strongRecOn with
  | ind dc IH =>
    intro die tokens
    by_cases h1 : dc ≤ 1
    · rw [ps_dc_le_one die dc h1, pswt_dc_le_one die tokens dc h1]
    by_cases h2 : dc ≤ die.sides
    · rw [ps_base die dc (by omega) h2, pswt_base die tokens dc (by omega) h2]
      refine (div_le_div_iff_of_pos_right die.sides_posQ).mpr ?_
      exact_mod_cast (by omega :
        die.sides - dc + 1 ≤ min (die.sides - dc + 1 + tokens) die.sides)
    · rw [ps_explode die dc (by omega), pswt_explode die tokens dc (by omega)]
      have hs := die.four_le_sides
      have hmem : die.sides ∈ Finset.Icc 1 die.sides := Finset.mem_Icc.mpr (by omega)
      have hterm :
          1 / (die.sides : ℚ) * probability_of_success die.next (dc - die.sides) ≤
            (if die.sides + tokens < die.sides - 1 then 0
             else probability_of_success_with_turbo_tokens die.next
                   (tokens - (die.sides - die.sides - 1)) (dc - die.sides) / (die.sides : ℚ)) := by
        rw [if_neg (by omega), one_div, inv_mul_eq_div]
        refine (div_le_div_iff_of_pos_right die.sides_posQ).mpr ?_
        have h0 : die.sides - die.sides - 1 = 0 := by omega
        rw [h0, Nat.sub_zero]
        exact IH (dc - die.sides) (by omega) die.next tokens
      refine hterm.trans ?_
      refine Finset.single_le_sum (f := fun r =>
        if r + tokens < die.sides - 1 then 0
        else probability_of_success_with_turbo_tokens die.next
              (tokens - (die.sides - r - 1)) (dc - r) / (die.sides : ℚ)) ?_ hmem
      intro r hr
      dsimp only
      by_cases hg : r + tokens < die.sides - 1
      · rw [if_pos hg]
      · rw [if_neg hg]
        exact div_nonneg (pswt_nonneg _ _ _) (le_of_lt die.sides_posQ)

/-! ### The integer-token model agrees with the truncated-subtraction model -/

theorem pswtIntF_congr (f₁ : ℕ) : ∀ (f₂ : ℕ) (die : Die) (tokens : ℤ) (dc : ℕ),
    dc ≤ f₁ → dc ≤ f₂ → pswtIntF f₁ die tokens dc = pswtIntF f₂ die tokens dc := by
  induction f₁ with
  | zero =>
    intro f₂ die tokens dc h₁ h₂
    have hdc : dc = 0 := Nat.le_zero.mp h₁
    subst hdc
    cases f₂ <;> simp [pswtIntF]
  | succ f ih =>
    intro f₂ die tokens dc h₁ h₂
    cases f₂ with
    | zero =>
      have hdc : dc = 0 := Nat.le_zero.mp h₂
      subst hdc
      simp [pswtIntF]
    | succ g =>
      simp only [pswtIntF]
      split_ifs with h1 h2
      · rfl
      · rfl
      · refine Finset.sum_congr rfl fun r hr => ?_
        have hr1 : 1 ≤ r := (Finset.mem_Icc.mp hr).1
        by_cases hguard : (r : ℤ) + tokens < (die.sides : ℤ) - 1
        · rw [if_pos hguard, if_pos hguard]
        · rw [if_neg hguard, if_neg hguard,
            ih g die.next (tokens - max ((die.sides : ℤ) - r - 1) 0) (dc - r) (by omega) (by omega)]

theorem pswt_int_eq_def (die : Die) (tokens : ℤ) (dc : ℕ) :
    probability_of_success_with_turbo_tokens_int die tokens dc =
      if dc ≤ 1 then 1
      else if dc ≤ die.sides then
        ((min ((die.sides : ℤ) - dc + 1 + tokens) (die.sides : ℤ) : ℤ) : ℚ) / (die.sides : ℚ)
      else ∑ r ∈ Finset.Icc 1 die.sides,
        if (r : ℤ) + tokens < (die.sides : ℤ) - 1 then 0
        else probability_of_success_with_turbo_tokens_int die.next
              (tokens - max ((die.sides : ℤ) - r - 1) 0) (dc - r) / (die.sides : ℚ) := by
  unfold probability_of_success_with_turbo_tokens_int
  cases dc with
  | zero => simp [pswtIntF]
  | succ n =>
    simp only [pswtIntF]
    split_ifs with h1 h2
    · rfl
    · rfl
    · refine Finset.sum_congr rfl fun r hr => ?_
      have hr1 : 1 ≤ r := (Finset.mem_Icc.mp hr).1
      by_cases hguard : (r : ℤ) + tokens < (die.sides : ℤ) - 1
      · rw [if_pos hguard, if_pos hguard]
      · rw [if_neg hguard, if_neg hguard,
          pswtIntF_congr n (n + 1 - r) die.next (tokens - max ((die.sides : ℤ) - r - 1) 0)
            (n + 1 - r) (by omega) le_rfl]

theorem pswt_int_agrees (dc : ℕ) : ∀ (die : Die) (tokens : ℕ),
    probability_of_success_with_turbo_tokens_int die (tokens : ℤ) dc =
      probability_of_success_with_turbo_tokens die tokens dc := by
  induction dc using Nat.strongRecOn with
  | ind dc IH =>
    intro die tokens
    rw [pswt_int_eq_def, probability_of_success_with_turbo_tokens_eq]
    split_ifs with h1 h2
    · rfl
    · congr 1
      have hz : ((min (die.sides - dc + 1 + tokens) die.sides : ℕ) : ℤ) =
          min ((die.sides : ℤ) - dc + 1 + (tokens : ℤ)) (die.sides : ℤ) := by
        omega
      rw [← hz]
      norm_cast
    · have hs := die.four_le_sides
      refine Finset.sum_congr rfl fun r hr => ?_
      have hr1 : 1 ≤ r := (Finset.mem_Icc.mp hr).1
      have hr2 : r ≤ die.sides := (Finset.mem_Icc.mp hr).2
      by_cases hg : r + tokens < die.sides - 1
      · rw [if_pos (by omega : (r : ℤ) + (tokens : ℤ) < (die.sides : ℤ) - 1), if_pos hg]
      · rw [if_neg (by omega : ¬ (r : ℤ) + (tokens : ℤ) < (die.sides : ℤ) - 1), if_neg hg]
        have harg : ((tokens - (die.sides - r - 1) : ℕ) : ℤ) =
            (tokens : ℤ) - max ((die.sides : ℤ) - r - 1) 0 := by
          omega
        rw [← harg]
        congr 1
        exact IH (dc - r) (by omega) die.next (tokens - (die.sides - r - 1))

/-! ### Recursion depth -/

theorem psDepthF_congr (f₁ : ℕ) : ∀ (f₂ : ℕ) (die : Die) (dc : ℕ),
    dc ≤ f₁ → dc ≤ f₂ → psDepthF f₁ die dc = psDepthF f₂ die dc := by
  induction f₁ with
  | zero =>
    intro f₂ die dc h₁ h₂
    have hdc : dc = 0 := Nat.le_zero.mp h₁
    subst hdc
    cases f₂ <;> simp [psDepthF]
  | succ f ih =>
    intro f₂ die dc h₁ h₂
    cases f₂ with
    | zero =>
      have hdc : dc = 0 := Nat.le_zero.mp h₂
      subst hdc
      simp [psDepthF]
    | succ g =>
      simp only [psDepthF]
      split_ifs with h1
      · rfl
      · have hs := die.sides_pos
        rw [ih g die.next (dc - die.sides) (by omega) (by omega)]

theorem ps_depth_eq (die : Die) (dc : ℕ) :
    ps_depth die dc =
      if dc ≤ die.sides then 0
      else ps_depth die.next (dc - die.sides) + 1 := by
  unfold ps_depth
  cases dc with
  | zero => simp [psDepthF]
  | succ n =>
    simp only [psDepthF]
    split_ifs with h1
    · rfl
    · have hs := die.sides_pos
      rw [psDepthF_congr n (n + 1 - die.sides) die.next (n + 1 - die.sides) (by omega) le_rfl]

theorem pswtDepthF_congr (f₁ : ℕ) : ∀ (f₂ : ℕ) (die : Die) (tokens dc : ℕ),
    dc ≤ f₁ → dc ≤ f₂ → pswtDepthF f₁ die tokens dc = pswtDepthF f₂ die tokens dc := by
  induction f₁ with
  | zero =>
    intro f₂ die tokens dc h₁ h₂
    have hdc : dc = 0 := Nat.le_zero.mp h₁
    subst hdc
    cases f₂ <;> simp [pswtDepthF]
  | succ f ih =>
    intro f₂ die tokens dc h₁ h₂
    cases f₂ with
    | zero =>
      have hdc : dc = 0 := Nat.le_zero.mp h₂
      subst hdc
      simp [pswtDepthF]
    | succ g =>
      simp only [pswtDepthF]
      split_ifs with h1
      · rfl
      · refine Finset.sup_congr rfl fun r hr => ?_
        have hr1 : 1 ≤ r := (Finset.mem_Icc.mp hr).1
        by_cases hg : r + tokens < die.sides - 1
        · rw [if_pos hg, if_pos hg]
        · rw [if_neg hg, if_neg hg,
            ih g die.next (tokens - (die.sides - r - 1)) (dc - r) (by omega) (by omega)]

theorem pswt_depth_eq (die : Die) (tokens dc : ℕ) :
    pswt_depth die tokens dc =
      if dc ≤ die.sides then 0
      else (Finset.Icc 1 die.sides).sup fun r =>
        if r + tokens < die.sides - 1 then 0
        else pswt_depth die.next (tokens - (die.sides - r - 1)) (dc - r) + 1 := by
  unfold pswt_depth
  cases dc with
  | zero => simp [pswtDepthF]
  | succ n =>
    simp only [pswtDepthF]
    split_ifs with h1
    · rfl
    · refine Finset.sup_congr rfl fun r hr => ?_
      have hr1 : 1 ≤ r := (Finset.mem_Icc.mp hr).1
      by_cases hg : r + tokens < die.sides - 1
      · rw [if_pos hg, if_pos hg]
      · rw [if_neg hg, if_neg hg,
          pswtDepthF_congr n (n + 1 - r) die.next (tokens - (die.sides - r - 1)) (n + 1 - r)
            (by omega) le_rfl]

theorem ps_depth_le (dc : ℕ) : ∀ die : Die, ps_depth die dc ≤ dc / 4 := by
  induction dc using Nat.strongRecOn with
  | ind dc IH =>
    intro die
    rw [ps_depth_eq]
    split_ifs with h
    · exact Nat.zero_le _
    · have hs := die.four_le_sides
      have h1 := IH (dc - die.sides) (by omega) die.next
      have h2 : dc - die.sides ≤ dc - 4 := by omega
      have h3 : (dc - die.sides) / 4 ≤ (dc - 4) / 4 := Nat.div_le_div_right h2
      omega

theorem pswt_depth_le (dc : ℕ) : ∀ (die : Die) (tokens : ℕ),
    pswt_depth die tokens dc ≤ dc := by
  induction dc using Nat.strongRecOn with
  | ind dc IH =>
    intro die tokens
    rw [pswt_depth_eq]
    split_ifs with h
    · exact Nat.zero_le _
    · refine Finset.sup_le fun r hr => ?_
      have hr1 : 1 ≤ r := (Finset.mem_Icc.mp hr).1
      by_cases hg : r + tokens < die.sides - 1
      · rw [if_pos hg]
        exact Nat.zero_le _
      · rw [if_neg hg]
        have := IH (dc - r) (by omega) die.next (tokens - (die.sides - r - 1))
        omega

theorem pswt_depth_step (die : Die) (tokens dc : ℕ) (h : die.sides < dc)
    (ht : die.sides - 1 ≤ 1 + tokens) :
    pswt_depth die.next (tokens - (die.sides - 1 - 1)) (dc - 1) + 1 ≤
      pswt_depth die tokens dc := by
  conv_rhs => rw [pswt_depth_eq]
  rw [if_neg (by omega)]
  have hmem : (1 : ℕ) ∈ Finset.Icc 1 die.sides := Finset.mem_Icc.mpr ⟨le_rfl, die.sides_pos⟩
  refine le_trans ?_ (Finset.le_sup hmem)
  dsimp only
  rw [if_neg (by omega : ¬ 1 + tokens < die.sides - 1)]

theorem pswt_depth_d20_chain (n : ℕ) : ∀ tokens : ℕ, 18 * n ≤ tokens →
    n ≤ pswt_depth Die.D20 tokens (20 + n) := by
  induction n with
  | zero => intro tokens _; exact Nat.zero_le _
  | succ m ih =>
    intro tokens h
    have hstep := pswt_depth_step Die.D20 tokens (20 + (m + 1))
      (by simp only [Die.sides]; omega) (by simp only [Die.sides]; omega)
    simp only [Die.next, Die.sides] at hstep
    norm_num at hstep
    have hm := ih (tokens - 18) (by omega)
    omega

/-! ### The claims -/

/-- Claim C1, counterexample: with zero tokens the token-augmented model does
NOT degenerate to the base model.  At `die = D4`, `dc = 5` the token model
yields `11/24` (a natural roll of `sides - 1 = 3` is treated as exploding
even with zero tokens, because the guard is `roll + tokens < sides - 1`),
while the base model yields `1/4`. -/
theorem claim_C1_counterexample :
    probability_of_success_with_turbo_tokens Die.D4 0 5 ≠ probability_of_success Die.D4 5 := by
  have hbase : probability_of_success Die.D4 5 = 1 / 4 := by
    rw [ps_explode Die.D4 5 (by decide), ps_dc_le_one _ _ (by decide)]
    norm_num [Die.sides]
  have htok : probability_of_success_with_turbo_tokens Die.D4 0 5 = 11 / 24 := by
    rw [pswt_explode Die.D4 0 5 (by decide)]
    have h : (Finset.Icc 1 (Die.sides Die.D4)) = {1, 2, 3, 4} := rfl
    rw [h, Finset.sum_insert (by decide), Finset.sum_insert (by decide),
      Finset.sum_insert (by decide), Finset.sum_singleton]
    norm_num [Die.sides, Die.next]
    rw [pswt_base _ _ _ (by decide) (by decide), pswt_dc_le_one _ _ _ (by decide)]
    norm_num [Die.sides]
  rw [hbase, htok]
  norm_num

/-- Claim C1, amended: the zero-token model agrees with the base model for
every `dc ≤ faces(die)` (in particular for `dc ≤ 1`); for `dc > faces(die)`
the two can differ, because the token model counts a natural roll of
`faces(die) - 1` as exploding even with zero tokens. -/
theorem claim_C1_amended (die : Die) (dc : ℕ) (h : dc ≤ die.sides) :
    probability_of_success_with_turbo_tokens die 0 dc = probability_of_success die dc := by
  by_cases h1 : dc ≤ 1
  · rw [pswt_dc_le_one die 0 dc h1, ps_dc_le_one die dc h1]
  · rw [pswt_base die 0 dc (by omega) h, ps_base die dc (by omega) h]
    have hmin : min (die.sides - dc + 1 + 0) die.sides = die.sides - dc + 1 := by omega
    rw [hmin]

/-- Witness for the amended claim C1 at `die = D4`, `dc = 4`. -/
theorem claim_C1_amended_witness :
    4 ≤ Die.sides Die.D4 ∧
      probability_of_success_with_turbo_tokens Die.D4 0 4 = probability_of_success Die.D4 4 :=
  ⟨by decide, claim_C1_amended Die.D4 4 (by decide)⟩

/-- Claim C2: for `dc > faces(die)` the token model is the sum, over every
natural roll `r ∈ [1, faces(die)]`, of `0` when `r + tokens < faces(die) - 1`
and otherwise of
`probabilityOfSuccessWithTokens(next(die), tokens - (faces(die) - r - 1), dc - r) / faces(die)`
(the natural-number `faces(die) - r - 1` is exactly
`max(faces(die) - r - 1, 0)`); in particular at `r = faces(die) - 1` zero
tokens are needed to explode. -/
theorem claim_C2_explosion_sum :
    (∀ (die : Die) (tokens dc : ℕ), die.sides < dc →
      probability_of_success_with_turbo_tokens die tokens dc =
        ∑ r ∈ Finset.Icc 1 die.sides,
          if r + tokens < die.sides - 1 then 0
          else probability_of_success_with_turbo_tokens die.next
                (tokens - (die.sides - r - 1)) (dc - r) / (die.sides : ℚ)) ∧
    (∀ die : Die, die.sides - (die.sides - 1) - 1 = 0) :=
  ⟨fun die tokens dc h => pswt_explode die tokens dc h, fun _ => by omega⟩

/-- Witness for claim C2 at `die = D4`, `tokens = 0`, `dc = 5`. -/
theorem claim_C2_explosion_sum_witness :
    Die.sides Die.D4 < 5 ∧
      probability_of_success_with_turbo_tokens Die.D4 0 5 =
        ∑ r ∈ Finset.Icc 1 (Die.sides Die.D4),
          if r + 0 < Die.sides Die.D4 - 1 then 0
          else probability_of_success_with_turbo_tokens (Die.next Die.D4)
                (0 - (Die.sides Die.D4 - r - 1)) (5 - r) / (Die.sides Die.D4 : ℚ) :=
  ⟨by decide, claim_C2_explosion_sum.1 Die.D4 0 5 (by decide)⟩

/-- Claim C3: the base model returns `1` for `dc ≤ 1`,
`(faces(die) - dc + 1) / faces(die)` for `1 < dc ≤ faces(die)`, and
`(1 / faces(die)) * probabilityOfSuccess(next(die), dc - faces(die))` for
`dc > faces(die)`; in particular `probability(D4, 4) = 1/4`,
`probability(D4, 5) = 1/4` and `probability(D20, 20) = 1/20`. -/
theorem claim_C3_base_model :
    (∀ (die : Die) (dc : ℕ),
      (dc ≤ 1 → probability_of_success die dc = 1) ∧
      (1 < dc → dc ≤ die.sides →
        probability_of_success die dc = ((die.sides - dc + 1 : ℕ) : ℚ) / (die.sides : ℚ)) ∧
      (die.sides < dc →
        probability_of_success die dc =
          1 / (die.sides : ℚ) * probability_of_success die.next (dc - die.sides))) ∧
    probability_of_success Die.D4 4 = 1 / 4 ∧
    probability_of_success Die.D4 5 = 1 / 4 ∧
    probability_of_success Die.D20 20 = 1 / 20 := by
  refine ⟨fun die dc => ⟨ps_dc_le_one die dc, ps_base die dc, ps_explode die dc⟩, ?_, ?_, ?_⟩
  · rw [ps_base Die.D4 4 (by decide) (by decide)]
    norm_num [Die.sides]
  · rw [ps_explode Die.D4 5 (by decide), ps_dc_le_one _ _ (by decide)]
    norm_num [Die.sides]
  · rw [ps_base Die.D20 20 (by decide) (by decide)]
    norm_num [Die.sides]

/-- Witness for claim C3's conditional branches at `die = D20`, `dc = 20`. -/
theorem claim_C3_base_model_witness :
    (1 < 20 ∧ 20 ≤ Die.sides Die.D20) ∧
      probability_of_success Die.D20 20 =
        ((Die.sides Die.D20 - 20 + 1 : ℕ) : ℚ) / (Die.sides Die.D20 : ℚ) :=
  ⟨⟨by decide, by decide⟩, (claim_C3_base_model.1 Die.D20 20).2.1 (by decide) (by decide)⟩

/-- Claim C4: for `1 < dc ≤ faces(die)` the token model returns
`min(faces(die) - dc + 1 + tokens, faces(die)) / faces(die)`; in particular
`probabilityWithTokens(D4, 3, 4) = 1`. -/
theorem claim_C4_token_base_case :
    (∀ (die : Die) (tokens dc : ℕ), 1 < dc → dc ≤ die.sides →
      probability_of_success_with_turbo_tokens die tokens dc =
        ((min (die.sides - dc + 1 + tokens) die.sides : ℕ) : ℚ) / (die.sides : ℚ)) ∧
    probability_of_success_with_turbo_tokens Die.D4 3 4 = 1 := by
  refine ⟨fun die tokens dc h1 h2 => pswt_base die tokens dc h1 h2, ?_⟩
  rw [pswt_base Die.D4 3 4 (by decide) (by decide)]
  norm_num [Die.sides]

/-- Witness for claim C4 at `die = D4`, `tokens = 3`, `dc = 4`. -/
theorem claim_C4_token_base_case_witness :
    (1 < 4 ∧ 4 ≤ Die.sides Die.D4) ∧
      probability_of_success_with_turbo_tokens Die.D4 3 4 =
        ((min (Die.sides Die.D4 - 4 + 1 + 3) (Die.sides Die.D4) : ℕ) : ℚ) /
          (Die.sides Die.D4 : ℚ) :=
  ⟨⟨by decide, by decide⟩, claim_C4_token_base_case.1 Die.D4 3 4 (by decide) (by decide)⟩

/-- Claim C5: both models always return a probability in `[0, 1]`, and for
`dc ≤ 1` both return exactly `1`. -/
theorem claim_C5_range (die : Die) (tokens dc : ℕ) :
    (0 ≤ probability_of_success die dc ∧ probability_of_success die dc ≤ 1) ∧
    (0 ≤ probability_of_success_with_turbo_tokens die tokens dc ∧
      probability_of_success_with_turbo_tokens die tokens dc ≤ 1) ∧
    (dc ≤ 1 →
      probability_of_success die dc = 1 ∧
      probability_of_success_with_turbo_tokens die tokens dc = 1) :=
  ⟨⟨ps_nonneg dc die, ps_le_one dc die⟩,
   ⟨pswt_nonneg dc die tokens, pswt_le_one dc die tokens⟩,
   fun h => ⟨ps_dc_le_one die dc h, pswt_dc_le_one die tokens dc h⟩⟩

/-- Witness for claim C5's `dc ≤ 1` branch at `die = D4`, `tokens = 0`,
`dc = 1`. -/
theorem claim_C5_range_witness :
    (1 : ℕ) ≤ 1 ∧ probability_of_success Die.D4 1 = 1 ∧
      probability_of_success_with_turbo_tokens Die.D4 0 1 = 1 :=
  ⟨le_rfl, ((claim_C5_range Die.D4 0 1).2.2 le_rfl).1, ((claim_C5_range Die.D4 0 1).2.2 le_rfl).2⟩

/-- Claim C6: for every die, token count and dc, the token-augmented model is
at least the base model — adding tokens never lowers the success
probability. -/
theorem claim_C6_tokens_never_hurt (die : Die) (tokens dc : ℕ) :
    probability_of_success die dc ≤
      probability_of_success_with_turbo_tokens die tokens dc :=
  pswt_ge_ps dc die tokens

/-- Claim C7: the guard `roll + tokens < faces(die) - 1` excludes exactly the
cases where `tokensNeededToExplode = faces(die) - roll - 1` exceeds the token
pool, so the subtraction `tokens - tokensNeededToExplode` never underflows
(on the guarded branch the true integer difference equals the truncated
natural difference), and consequently the token model computed with genuine
integer token arithmetic agrees with the model everywhere — both functions
are total on their whole domain. -/
theorem claim_C7_no_underflow :
    (∀ (die : Die) (r tokens : ℕ), 1 ≤ r → r ≤ die.sides →
      ¬ (r + tokens < die.sides - 1) →
        die.sides - r - 1 ≤ tokens ∧
        (tokens : ℤ) - ((die.sides - r - 1 : ℕ) : ℤ) =
          ((tokens - (die.sides - r - 1) : ℕ) : ℤ)) ∧
    (∀ (die : Die) (tokens dc : ℕ),
      probability_of_success_with_turbo_tokens_int die (tokens : ℤ) dc =
        probability_of_success_with_turbo_tokens die tokens dc) :=
  ⟨fun _ r tokens _ _ h3 => ⟨by omega, by omega⟩,
   fun die tokens dc => pswt_int_agrees dc die tokens⟩

/-- Witness for claim C7 at `die = D4`, `r = 3`, `tokens = 0` (the
zero-token explosion of a roll one below the maximum). -/
theorem claim_C7_no_underflow_witness :
    ((1 : ℕ) ≤ 3 ∧ 3 ≤ Die.sides Die.D4 ∧ ¬ (3 + 0 < Die.sides Die.D4 - 1)) ∧
      (Die.sides Die.D4 - 3 - 1 ≤ 0 ∧
        ((0 : ℕ) : ℤ) - ((Die.sides Die.D4 - 3 - 1 : ℕ) : ℤ) =
          (((0 : ℕ) - (Die.sides Die.D4 - 3 - 1) : ℕ) : ℤ)) :=
  ⟨⟨by decide, by decide, by decide⟩,
   claim_C7_no_underflow.1 Die.D4 3 0 (by decide) (by decide) (by decide)⟩

attribute [irreducible] pswt_depth

/-- Claim C8, counterexample: the recursion depth of the token-augmented
model is NOT bounded by `dc / 4`.  At `die = D4`, `tokens = 300`, `dc = 36`
the deepest call chain (always rolling `1` and spending tokens to explode)
has depth at least `16 > 36 / 4 = 9`. -/
theorem claim_C8_depth_counterexample : 36 / 4 < pswt_depth Die.D4 300 36 := by
  have e1 : pswt_depth Die.D4.next (300 - (Die.D4.sides - 1 - 1)) (36 - 1) =
      pswt_depth Die.D6 298 35 := rfl
  have s1 := pswt_depth_step Die.D4 300 36 (by decide) (by decide)
  rw [e1] at s1
  have e2 : pswt_depth Die.D6.next (298 - (Die.D6.sides - 1 - 1)) (35 - 1) =
      pswt_depth Die.D8 294 34 := rfl
  have s2 := pswt_depth_step Die.D6 298 35 (by decide) (by decide)
  rw [e2] at s2
  have e3 : pswt_depth Die.D8.next (294 - (Die.D8.sides - 1 - 1)) (34 - 1) =
      pswt_depth Die.D10 288 33 := rfl
  have s3 := pswt_depth_step Die.D8 294 34 (by decide) (by decide)
  rw [e3] at s3
  have e4 : pswt_depth Die.D10.next (288 - (Die.D10.sides - 1 - 1)) (33 - 1) =
      pswt_depth Die.D12 280 32 := rfl
  have s4 := pswt_depth_step Die.D10 288 33 (by decide) (by decide)
  rw [e4] at s4
  have e5 : pswt_depth Die.D12.next (280 - (Die.D12.sides - 1 - 1)) (32 - 1) =
      pswt_depth Die.D20 270 31 := rfl
  have s5 := pswt_depth_step Die.D12 280 32 (by decide) (by decide)
  rw [e5] at s5
  have ec : pswt_depth Die.D20 270 (20 + 11) = pswt_depth Die.D20 270 31 := rfl
  have hc := pswt_depth_d20_chain 11 270 (by norm_num)
  rw [ec] at hc
  omega

/-- Claim C8, amended: both recursions terminate for every finite input (the
depth functions are everywhere defined and finite); the base model's
recursion depth is bounded by `dc / 4`, but the token-augmented model's depth
is only bounded by `dc` itself — a level may lower the residual DC by as
little as 1 when tokens force an explosion on a roll of 1. -/
theorem claim_C8_depth_amended :
    (∀ (die : Die) (dc : ℕ), ps_depth die dc ≤ dc / 4) ∧
    (∀ (die : Die) (tokens dc : ℕ), pswt_depth die tokens dc ≤ dc) :=
  ⟨fun die dc => ps_depth_le dc die, fun die tokens dc => pswt_depth_le dc die tokens⟩

/-- Claim C9: the base model is non-increasing in `dc`. -/
theorem claim_C9_antitone_in_dc (die : Die) (dc₁ dc₂ : ℕ) (h : dc₁ ≤ dc₂) :
    probability_of_success die dc₂ ≤ probability_of_success die dc₁ :=
  ps_antitone dc₂ die dc₁ h

/-- Witness for claim C9 at `die = D4`, `dc₁ = 4`, `dc₂ = 5`. -/
theorem claim_C9_antitone_in_dc_witness :
    (4 : ℕ) ≤ 5 ∧ probability_of_success Die.D4 5 ≤ probability_of_success Die.D4 4 :=
  ⟨by decide, claim_C9_antitone_in_dc Die.D4 4 5 (by decide)⟩

/-- Claim C10: the token-augmented model is non-decreasing in the token
count. -/
theorem claim_C10_monotone_in_tokens (die : Die) (dc t₁ t₂ : ℕ) (h : t₁ ≤ t₂) :
    probability_of_success_with_turbo_tokens die t₁ dc ≤
      probability_of_success_with_turbo_tokens die t₂ dc :=
  pswt_mono_tokens dc die t₁ t₂ h

/-- Witness for claim C10 at `die = D4`, `dc = 5`, `t₁ = 0`, `t₂ = 2`. -/
theorem claim_C10_monotone_in_tokens_witness :
    (0 : ℕ) ≤ 2 ∧
      probability_of_success_with_turbo_tokens Die.D4 0 5 ≤
        probability_of_success_with_turbo_tokens Die.D4 2 5 :=
  ⟨by decide, claim_C10_monotone_in_tokens Die.D4 5 0 2 (by decide)⟩
